import Mathlib

/-!
# hyprTrader: `LockFreeQueue` and `MemoryPool`

A shallow embedding of `src/common/LockFreeQueue.h` and `src/common/MemoryPool.h`
together with the properties of the sequential behaviour of both classes.

* `std::vector<T>` is a `List T`; `size_t` indices are natural numbers.  The
  source computes `current_head + 1` and `current_tail + 1` in `size_t`; the
  successor of the model is that sum wherever the index is below
  `buffer_.size()`, which a vector keeps below `SIZE_MAX`.  Every state reached
  from the constructor has both indices below `buffer_.size()`, and the
  statements about one call on an arbitrary state that depend on the sum
  assume it of the index they increment.
* The atomics `head_` and `tail_` are plain fields: the calls are applied one
  after another, the memory orders play no role in this model.
* Undefined behaviour of the C++ code (a modulus by `buffer_.size() == 0`, an
  index outside the vector) is the result `none`.
* A `T*` into `store_` is the signed element offset `ptr - &store_[0]`.
* A `throw` of `MemoryPool` is an `Except.error`, returned together with the
  state the object is left in.
-/

namespace HyprTrader

/-! ## Definitions: `LockFreeQueue` -/

/-- The data members of `LockFreeQueue<T>`: the slot vector and the two indices. -/
structure LockFreeQueue (T : Type) where
  buffer_ : List T
  head_ : Nat
  tail_ : Nat

namespace LockFreeQueue

variable {T : Type}

/-- The constructor `LockFreeQueue(size_t size) : buffer_(size), head_(0), tail_(0)`:
`size` value-initialised slots and both indices at zero. -/
def construct [Inhabited T] (size : Nat) : LockFreeQueue T :=
  { buffer_ := List.replicate size default, head_ := 0, tail_ := 0 }

/-- The method `bool push(const T &value)`.  The result is `none` where the C++ code
has undefined behaviour: `% buffer_.size()` with an empty vector, or the store
`buffer_[current_head] = value` outside the vector.  The sum `current_head + 1` is
the `size_t` sum of the source for `head_ < buffer_.size()`, where it cannot wrap. -/
def push (q : LockFreeQueue T) (value : T) : Option (Bool × LockFreeQueue T) :=
  let current_head := q.head_
  if q.buffer_.length = 0 then none
  else
    let next_head := (current_head + 1) % q.buffer_.length
    if next_head = q.tail_ then
      some (false, q)
    else if current_head < q.buffer_.length then
      some (true, { q with buffer_ := q.buffer_.set current_head value, head_ := next_head })
    else none

/-- The method `std::optional<T> pop()`.  The result is `none` where the C++ code has
undefined behaviour: the load `buffer_[current_tail]` outside the vector (for a
load inside the vector the size is positive and the modulus is defined). -/
def pop (q : LockFreeQueue T) : Option (Option T × LockFreeQueue T) :=
  let current_tail := q.tail_
  if current_tail = q.head_ then
    some (none, q)
  else
    match q.buffer_[current_tail]? with
    | none => none
    | some value =>
      some (some value, { q with tail_ := (current_tail + 1) % q.buffer_.length })

end LockFreeQueue

/-- One call made on a queue by its user. -/
inductive QueueCall (T : Type) where
  | push (value : T)
  | pop

/-- What a call returned: the pushed value with the `bool` of `push`, or the
`optional` of `pop`. -/
inductive QueueReturn (T : Type) where
  | pushed (value : T) (accepted : Bool)
  | popped (value : Option T)

namespace LockFreeQueue

variable {T : Type}

/-- Apply one call. -/
def call (q : LockFreeQueue T) : QueueCall T → Option (QueueReturn T × LockFreeQueue T)
  | .push value =>
    match q.push value with
    | none => none
    | some (accepted, q1) => some (.pushed value accepted, q1)
  | .pop =>
    match q.pop with
    | none => none
    | some (r, q1) => some (.popped r, q1)

/-- Apply a finite sequence of calls one after another, collecting what each returned. -/
def run (q : LockFreeQueue T) : List (QueueCall T) → Option (List (QueueReturn T) × LockFreeQueue T)
  | [] => some ([], q)
  | c :: cs =>
    match q.call c with
    | none => none
    | some (r, q1) =>
      match q1.run cs with
      | none => none
      | some (rs, q2) => some (r :: rs, q2)

/-- The values of the pushes that returned `true`, in call order. -/
def acceptedValues : List (QueueReturn T) → List T
  | [] => []
  | .pushed value true :: rs => value :: acceptedValues rs
  | _ :: rs => acceptedValues rs

/-- The values returned by the pops that returned a value, in call order. -/
def poppedValues : List (QueueReturn T) → List T
  | [] => []
  | .popped (some value) :: rs => value :: poppedValues rs
  | _ :: rs => poppedValues rs

/-- The number of occupied slots read off the indices: `(head - tail) mod capacity`. -/
def occupancy (q : LockFreeQueue T) : Nat :=
  (((q.head_ : Int) - (q.tail_ : Int)) % (q.buffer_.length : Int)).toNat

/-- The occupied slots, read from `tail_` towards `head_` around the ring; an entry is
`none` if the slot index falls outside the vector. -/
def liveSlots (q : LockFreeQueue T) : List (Option T) :=
  (List.range q.occupancy).map fun k => q.buffer_[(q.tail_ + k) % q.buffer_.length]?

/-- The calls of the fill and drain scenario for the values `vs` and a last value `d`:
push every value of `vs`, push `d`, pop, push `d` again, pop `vs.length` times, pop
once more. -/
def fillDrainCalls (vs : List T) (d : T) : List (QueueCall T) :=
  vs.map QueueCall.push ++ [QueueCall.push d, QueueCall.pop, QueueCall.push d]
    ++ List.replicate vs.length QueueCall.pop ++ [QueueCall.pop]

/-- What the fill and drain scenario is expected to return for `vs = a :: rest`: the
pushes of `vs` accepted, `d` refused, `a` popped, `d` accepted, then `rest` and `d`
popped in that order, then nothing. -/
def fillDrainReturns (a : T) (rest : List T) (d : T) : List (QueueReturn T) :=
  (a :: rest).map (fun v => QueueReturn.pushed v true)
    ++ [QueueReturn.pushed d false, QueueReturn.popped (some a), QueueReturn.pushed d true]
    ++ (rest ++ [d]).map (fun v => QueueReturn.popped (some v))
    ++ [QueueReturn.popped none]

/-- The bounded FIFO a queue of capacity `n` is compared with: one call on the list
`l` of live values, oldest first.  At most `n - 1` values are live. -/
def fifoCall (n : Nat) (l : List T) : QueueCall T → QueueReturn T × List T
  | .push value =>
    if l.length + 1 < n then (.pushed value true, l ++ [value]) else (.pushed value false, l)
  | .pop =>
    match l with
    | [] => (.popped none, [])
    | x :: xs => (.popped (some x), xs)

/-- A sequence of calls on the bounded FIFO. -/
def fifoRun (n : Nat) (l : List T) : List (QueueCall T) → List (QueueReturn T) × List T
  | [] => ([], l)
  | c :: cs =>
    ((fifoCall n l c).1 :: (fifoRun n (fifoCall n l c).2 cs).1,
      (fifoRun n (fifoCall n l c).2 cs).2)

/-- The abstraction relation: the queue `q` of capacity `n` holds the values `l`, oldest
first, in the slots from `tail_` up to `head_` around the ring. -/
def Holds (n : Nat) (q : LockFreeQueue T) (l : List T) : Prop :=
  q.buffer_.length = n ∧ q.tail_ < n ∧ l.length < n ∧
    q.head_ = (q.tail_ + l.length) % n ∧
    ∀ k, k < l.length → q.buffer_[(q.tail_ + k) % n]? = l[k]?

/-- The number of live elements after a sequence of returns: accepted pushes minus
successful pops. -/
def liveCount (rs : List (QueueReturn T)) : Int :=
  ((acceptedValues rs).length : Int) - ((poppedValues rs).length : Int)

end LockFreeQueue

/-! ## Definitions: `MemoryPool` -/

/-- The data members of `MemoryPool<T>`: the slot store and the stack of free indices. -/
structure MemoryPool (T : Type) where
  store_ : List T
  free_indices_ : List Nat

/-- The two `std::runtime_error`s thrown by the pool: `exhausted` is
"MemoryPool Exhausted!", `foreignPointer` is "Pointer does not belong to this pool.". -/
inductive PoolError where
  | exhausted
  | foreignPointer
  deriving DecidableEq

namespace MemoryPool

variable {T : Type}

/-- The constructor `MemoryPool(std::size_t size)`: the loop `for i in 0 .. size-1`
appends `T{}` to `store_` and `i` to `free_indices_`. -/
def construct [Inhabited T] (size : Nat) : MemoryPool T :=
  (List.range size).foldl
    (fun p i => { store_ := p.store_ ++ [default], free_indices_ := p.free_indices_ ++ [i] })
    { store_ := [], free_indices_ := [] }

/-- The method `T *allocate()`: throws on an empty free list, else takes
`free_indices_.back()`, pops it and returns `&store_[index]`, here the offset `index`. -/
def allocate (p : MemoryPool T) : Except PoolError Int × MemoryPool T :=
  match p.free_indices_.getLast? with
  | none => (.error .exhausted, p)
  | some index => (.ok (index : Int), { p with free_indices_ := p.free_indices_.dropLast })

/-- The method `void deallocate(T *ptr)` for a pointer at signed offset
`ptr - &store_[0]`: throws when the offset is negative or not below `store_.size()`,
else pushes it on the free list. -/
def deallocate (p : MemoryPool T) (ptr : Int) : Except PoolError Unit × MemoryPool T :=
  let index := ptr
  if index < 0 ∨ index.toNat ≥ p.store_.length then
    (.error .foreignPointer, p)
  else
    (.ok (), { p with free_indices_ := p.free_indices_ ++ [index.toNat] })

end MemoryPool

/-- One call made on a pool by its user. -/
inductive PoolCall where
  | allocate
  | deallocate (ptr : Int)

/-- What a call on a pool returned or threw; a `deallocate` is recorded with its argument. -/
inductive PoolReturn where
  | allocated (r : Except PoolError Int)
  | deallocated (ptr : Int) (r : Except PoolError Unit)

namespace MemoryPool

variable {T : Type}

/-- Apply one call. -/
def call (p : MemoryPool T) : PoolCall → PoolReturn × MemoryPool T
  | .allocate => (.allocated p.allocate.1, p.allocate.2)
  | .deallocate ptr => (.deallocated ptr (p.deallocate ptr).1, (p.deallocate ptr).2)

/-- Apply a finite sequence of calls one after another, collecting what each returned. -/
def run (p : MemoryPool T) : List PoolCall → List PoolReturn × MemoryPool T
  | [] => ([], p)
  | c :: cs => ((p.call c).1 :: ((p.call c).2.run cs).1, ((p.call c).2.run cs).2)

/-- Repeat `allocate` until `k` calls have been made, collecting the results. -/
def allocateMany (p : MemoryPool T) : Nat → List (Except PoolError Int) × MemoryPool T
  | 0 => ([], p)
  | k + 1 => (p.allocate.1 :: (p.allocate.2.allocateMany k).1, (p.allocate.2.allocateMany k).2)

/-- The handles checked out after one more return, given those checked out before it:
a successful `allocate` adds its handle, a successful `deallocate` removes its
argument. -/
def checkedOutStep (out : List Int) : PoolReturn → List Int
  | .allocated (.ok h) => h :: out
  | .allocated (.error _) => out
  | .deallocated ptr (.ok _) => out.erase ptr
  | .deallocated _ (.error _) => out

/-- The handles checked out after a sequence of returns: returned by `allocate` and
not deallocated since. -/
def checkedOut (out : List Int) (rs : List PoolReturn) : List Int :=
  rs.foldl checkedOutStep out

/-- Disciplined use: every `deallocate` is called on a handle checked out at that time. -/
def Disciplined (out : List Int) : List PoolReturn → Prop
  | [] => True
  | .deallocated ptr r :: rs =>
    ptr ∈ out ∧ Disciplined (checkedOutStep out (.deallocated ptr r)) rs
  | .allocated r :: rs => Disciplined (checkedOutStep out (.allocated r)) rs

/-- Disciplined use of a given sequence is decidable. -/
instance decDisciplined : (out : List Int) → (rs : List PoolReturn) →
    Decidable (Disciplined out rs)
  | _, [] => isTrue trivial
  | out, .deallocated ptr r :: rs =>
    match (inferInstance : Decidable (ptr ∈ out)),
      decDisciplined (checkedOutStep out (.deallocated ptr r)) rs with
    | isTrue h1, isTrue h2 => isTrue ⟨h1, h2⟩
    | isFalse h1, _ => isFalse fun h => h1 h.1
    | _, isFalse h2 => isFalse fun h => h2 h.2
  | out, .allocated r :: rs => decDisciplined (checkedOutStep out (.allocated r)) rs

end MemoryPool

/-! ## Arithmetic of the ring indices -/

theorem wrap_eq (a n : Nat) (h : a < n + n) : a % n = if a < n then a else a - n := by
  split
  · exact Nat.mod_eq_of_lt (by assumption)
  · rw [Nat.mod_eq_sub_mod (by omega)]
    exact Nat.mod_eq_of_lt (by omega)

theorem wrap_inj (t j k n : Nat) (ht : t < n) (hj : j < n) (hk : k < n)
    (h : (t + j) % n = (t + k) % n) : j = k := by
  rw [wrap_eq (t + j) n (by omega), wrap_eq (t + k) n (by omega)] at h
  split at h <;> split at h <;> omega

theorem index_diff_emod (h t len n : Nat) (ht : t < n) (hl : len < n)
    (hh : h = (t + len) % n) : ((h : Int) - (t : Int)) % (n : Int) = (len : Int) := by
  rw [wrap_eq (t + len) n (by omega)] at hh
  split at hh
  · have e : ((h : Int) - (t : Int)) = (len : Int) := by omega
    rw [e, Int.emod_eq_of_lt (by omega) (by omega)]
  · have e : ((h : Int) - (t : Int)) = (len : Int) + (-1) * (n : Int) := by omega
    rw [e, Int.add_mul_emod_self, Int.emod_eq_of_lt (by omega) (by omega)]

/-! ## The queue refines the bounded FIFO -/

namespace LockFreeQueue

variable {T : Type}

theorem holds_construct [Inhabited T] (n : Nat) (hn : 1 ≤ n) :
    Holds n (construct n : LockFreeQueue T) [] := by
  refine ⟨by simp [construct], by simp [construct]; omega, by simp; omega, ?_, ?_⟩
  · simp [construct]
  · intro k hk
    simp at hk

theorem holds_push (n : Nat) (q : LockFreeQueue T) (l : List T) (v : T) (h : Holds n q l) :
    ∃ q1, q.push v = some (decide (l.length + 1 < n), q1) ∧
      Holds n q1 (if l.length + 1 < n then l ++ [v] else l) := by
  obtain ⟨hb, ht, hl, hh, hs⟩ := h
  have hnext : (q.head_ + 1) % n = (q.tail_ + (l.length + 1)) % n := by
    rw [hh, Nat.mod_add_mod, Nat.add_assoc]
  have hhead : q.head_ < n := by rw [hh]; exact Nat.mod_lt _ (by omega)
  by_cases hroom : l.length + 1 < n
  · have hne : (q.head_ + 1) % n ≠ q.tail_ := by
      intro e
      rw [hnext, wrap_eq _ n (by omega)] at e
      split at e <;> omega
    refine ⟨{ q with buffer_ := q.buffer_.set q.head_ v, head_ := (q.head_ + 1) % n }, ?_, ?_⟩
    · simp [push, hb, hne, hhead, hroom]
      omega
    · rw [if_pos hroom]
      refine ⟨by simp [hb], ht, by simp; omega, by simp [hnext], ?_⟩
      intro k hk
      simp only [List.length_append, List.length_singleton] at hk
      by_cases hkl : k < l.length
      · have hidx : q.head_ ≠ (q.tail_ + k) % n := by
          intro e
          rw [hh] at e
          have := wrap_inj q.tail_ l.length k n ht hl (by omega) e
          omega
        simp only [List.getElem?_set_ne hidx]
        rw [hs k hkl, List.getElem?_append_left hkl]
      · have hk2 : k = l.length := by omega
        subst hk2
        rw [← hh]
        simp only [List.getElem?_set_self (by omega : q.head_ < q.buffer_.length)]
        simp
  · have hfull : (q.head_ + 1) % n = q.tail_ := by
      rw [hnext, wrap_eq _ n (by omega)]
      split <;> omega
    refine ⟨q, ?_, ?_⟩
    · simp [push, hb, hfull, hroom]
      omega
    · rw [if_neg hroom]
      exact ⟨hb, ht, hl, hh, hs⟩

theorem holds_pop (n : Nat) (q : LockFreeQueue T) (l : List T) (h : Holds n q l) :
    ∃ q1, q.pop = some (l.head?, q1) ∧ Holds n q1 l.tail := by
  obtain ⟨hb, ht, hl, hh, hs⟩ := h
  cases l with
  | nil =>
    have e : q.tail_ = q.head_ := by
      rw [hh]
      simp [Nat.mod_eq_of_lt ht]
    exact ⟨q, by simp [pop, e], hb, ht, hl, hh, hs⟩
  | cons x xs =>
    simp only [List.length_cons] at hl hh hs
    have hne : q.tail_ ≠ q.head_ := by
      intro e
      rw [hh, wrap_eq _ n (by omega)] at e
      split at e <;> omega
    have h0 := hs 0 (by omega)
    simp only [Nat.add_zero, Nat.mod_eq_of_lt ht, List.getElem?_cons_zero] at h0
    refine ⟨{ q with tail_ := (q.tail_ + 1) % n }, ?_, ?_⟩
    · simp [pop, hne, h0, hb]
    · refine ⟨hb, Nat.mod_lt _ (by omega), by simp; omega, ?_, ?_⟩
      · simp only [List.tail_cons]
        rw [hh, Nat.mod_add_mod]
        congr 1
        omega
      · intro k hk
        simp only [List.tail_cons] at hk ⊢
        rw [Nat.mod_add_mod]
        have := hs (k + 1) (by omega)
        rw [List.getElem?_cons_succ] at this
        rw [← this]
        congr 2
        omega

theorem holds_call (n : Nat) (q : LockFreeQueue T) (l : List T) (c : QueueCall T)
    (h : Holds n q l) :
    ∃ q1, q.call c = some ((fifoCall n l c).1, q1) ∧ Holds n q1 (fifoCall n l c).2 := by
  cases c with
  | push v =>
    obtain ⟨q1, e, h1⟩ := holds_push n q l v h
    refine ⟨q1, ?_, ?_⟩
    · by_cases hroom : l.length + 1 < n <;> simp [call, e, fifoCall, hroom]
    · by_cases hroom : l.length + 1 < n <;> simpa [fifoCall, hroom] using h1
  | pop =>
    obtain ⟨q1, e, h1⟩ := holds_pop n q l h
    refine ⟨q1, ?_, ?_⟩
    · cases l <;> simp [call, e, fifoCall]
    · cases l <;> simpa [fifoCall] using h1

theorem holds_run (n : Nat) (cs : List (QueueCall T)) :
    ∀ (q : LockFreeQueue T) (l : List T), Holds n q l →
      ∃ q1, q.run cs = some ((fifoRun n l cs).1, q1) ∧ Holds n q1 (fifoRun n l cs).2 := by
  induction cs with
  | nil =>
    intro q l h
    exact ⟨q, rfl, h⟩
  | cons c cs ih =>
    intro q l h
    obtain ⟨q1, e1, h1⟩ := holds_call n q l c h
    obtain ⟨q2, e2, h2⟩ := ih q1 _ h1
    exact ⟨q2, by simp [run, e1, e2, fifoRun], by simpa [fifoRun] using h2⟩

theorem holds_occupancy (n : Nat) (q : LockFreeQueue T) (l : List T) (h : Holds n q l) :
    q.occupancy = l.length := by
  obtain ⟨hb, ht, hl, hh, _⟩ := h
  simp [occupancy, hb, index_diff_emod q.head_ q.tail_ l.length n ht hl hh]

theorem holds_liveSlots (n : Nat) (q : LockFreeQueue T) (l : List T) (h : Holds n q l) :
    q.liveSlots = l.map some := by
  have ho := holds_occupancy n q l h
  obtain ⟨hb, ht, hl, hh, hs⟩ := h
  apply List.ext_getElem?
  intro k
  by_cases hk : k < l.length
  · simp [liveSlots, ho, hb, List.getElem?_range hk, hs k hk, List.getElem?_eq_getElem hk]
  · have h1 : (q.liveSlots)[k]? = none := by
      apply List.getElem?_eq_none
      simp [liveSlots, ho]
      omega
    have h2 : (l.map some)[k]? = none := by
      apply List.getElem?_eq_none
      simp
      omega
    rw [h1, h2]

theorem fifoRun_values (n : Nat) (cs : List (QueueCall T)) :
    ∀ l : List T, l ++ acceptedValues (fifoRun n l cs).1
      = poppedValues (fifoRun n l cs).1 ++ (fifoRun n l cs).2 := by
  induction cs with
  | nil => intro l; simp [fifoRun, acceptedValues, poppedValues]
  | cons c cs ih =>
    intro l
    cases c with
    | push v =>
      by_cases hroom : l.length + 1 < n
      · have := ih (l ++ [v])
        simpa [fifoRun, fifoCall, hroom, acceptedValues, poppedValues] using this
      · have := ih l
        simpa [fifoRun, fifoCall, hroom, acceptedValues, poppedValues] using this
    | pop =>
      cases l with
      | nil =>
        have := ih []
        simpa [fifoRun, fifoCall, acceptedValues, poppedValues] using this
      | cons x xs =>
        have := ih xs
        simpa [fifoRun, fifoCall, acceptedValues, poppedValues] using this

theorem fifoRun_capacity_one (cs : List (QueueCall T)) :
    ∀ (l : List T) (v : T), QueueReturn.pushed v true ∉ (fifoRun 1 l cs).1 := by
  induction cs with
  | nil => intro l v; simp [fifoRun]
  | cons c cs ih =>
    intro l v
    cases c with
    | push w =>
      have := ih l v
      simpa [fifoRun, fifoCall] using this
    | pop =>
      cases l with
      | nil =>
        have := ih [] v
        simpa [fifoRun, fifoCall] using this
      | cons x xs =>
        have := ih xs v
        simpa [fifoRun, fifoCall] using this

/-- Every state reached from a fresh queue of capacity `n ≥ 1` holds a list `l` of live
values, and the accepted values are the popped ones followed by `l`. -/
theorem reach [Inhabited T] (n : Nat) (hn : 1 ≤ n) (cs : List (QueueCall T)) :
    ∃ (rs : List (QueueReturn T)) (q : LockFreeQueue T) (l : List T),
      (construct n : LockFreeQueue T).run cs = some (rs, q) ∧ Holds n q l ∧
      acceptedValues rs = poppedValues rs ++ l ∧ rs = (fifoRun n [] cs).1 := by
  obtain ⟨q, e, h⟩ := holds_run n cs (construct n) [] (holds_construct n hn)
  refine ⟨_, q, _, e, h, ?_, rfl⟩
  simpa using fifoRun_values n cs []

theorem reach_liveCount [Inhabited T] (n : Nat) (rs : List (QueueReturn T))
    (q : LockFreeQueue T) (l : List T) (h : Holds n q l)
    (e : acceptedValues rs = poppedValues rs ++ l) :
    liveCount rs = (l.length : Int) ∧
      liveCount rs = ((q.head_ : Int) - (q.tail_ : Int)) % (n : Int) := by
  have h1 : liveCount rs = (l.length : Int) := by
    simp [liveCount, e]
  obtain ⟨_, ht, hl, hh, _⟩ := h
  exact ⟨h1, by rw [h1, index_diff_emod q.head_ q.tail_ l.length n ht hl hh]⟩

theorem fifoRun_append (n : Nat) (cs ds : List (QueueCall T)) :
    ∀ l : List T, fifoRun n l (cs ++ ds)
      = ((fifoRun n l cs).1 ++ (fifoRun n (fifoRun n l cs).2 ds).1,
          (fifoRun n (fifoRun n l cs).2 ds).2) := by
  induction cs with
  | nil => intro l; simp [fifoRun]
  | cons c cs ih =>
    intro l
    simp [fifoRun, ih]

theorem fifoRun_pushes (n : Nat) (vs : List T) :
    ∀ l : List T, l.length + vs.length < n →
      fifoRun n l (vs.map QueueCall.push)
        = (vs.map (fun v => QueueReturn.pushed v true), l ++ vs) := by
  induction vs with
  | nil => intro l _; simp [fifoRun]
  | cons v vs ih =>
    intro l h
    simp only [List.length_cons] at h
    have hroom : l.length + 1 < n := by omega
    have := ih (l ++ [v]) (by simp; omega)
    simp [fifoRun, fifoCall, hroom, this]

theorem fifoRun_pops (n : Nat) (l : List T) :
    fifoRun n l (List.replicate l.length QueueCall.pop)
      = (l.map (fun v => QueueReturn.popped (some v)), []) := by
  induction l with
  | nil => simp [fifoRun]
  | cons x xs ih => simp [fifoRun, fifoCall, List.replicate_succ, ih]

theorem fifoRun_fillDrain (a : T) (rest : List T) (d : T) :
    (fifoRun (rest.length + 2) [] (fillDrainCalls (a :: rest) d)).1
      = fillDrainReturns a rest d := by
  have h1 := fifoRun_pushes (rest.length + 2) (a :: rest) [] (by simp)
  have h2 : fifoRun (rest.length + 2) (rest ++ [d])
      (List.replicate (a :: rest).length QueueCall.pop)
        = ((rest ++ [d]).map (fun v => QueueReturn.popped (some v)), []) := by
    have e : (a :: rest).length = (rest ++ [d]).length := by simp
    rw [e]
    exact fifoRun_pops (rest.length + 2) (rest ++ [d])
  have h3 : fifoRun (rest.length + 2) (a :: rest)
      [QueueCall.push d, QueueCall.pop, QueueCall.push d]
        = ([QueueReturn.pushed d false, QueueReturn.popped (some a),
            QueueReturn.pushed d true], rest ++ [d]) := by
    simp [fifoRun, fifoCall]
  have h4 : fifoRun (rest.length + 2) ([] : List T) [QueueCall.pop]
      = ([QueueReturn.popped none], []) := by
    simp [fifoRun, fifoCall]
  simp only [fillDrainCalls, fillDrainReturns, fifoRun_append, h1, List.nil_append, h3, h2, h4]

/-! ## Claims on `LockFreeQueue` -/

/-- C1 (FIFO, no loss): for every capacity `n ≥ 1` and every finite sequence of `push`
and `pop` calls applied one after another to a freshly constructed queue, the run is
defined, the values returned by the successful pops are a prefix of the values of
the accepted pushes, and the accepted values not yet popped are exactly the contents
of the occupied slots of the final queue, read from `tail_` towards `head_`. -/
theorem fifo_no_loss [Inhabited T] (n : Nat) (hn : 1 ≤ n) (cs : List (QueueCall T)) :
    ∃ (rs : List (QueueReturn T)) (q : LockFreeQueue T) (live : List T),
      (construct n : LockFreeQueue T).run cs = some (rs, q) ∧
      poppedValues rs <+: acceptedValues rs ∧
      acceptedValues rs = poppedValues rs ++ live ∧
      q.liveSlots = live.map some := by
  obtain ⟨rs, q, l, e, h, hv, _⟩ := reach n hn cs
  exact ⟨rs, q, l, e, ⟨l, hv.symm⟩, hv, holds_liveSlots n q l h⟩

/-- C2 (full-queue guard): for every queue state with capacity at least 1 whose head
index lies in the vector (the class invariant, under which the `size_t` sum
`current_head + 1` does not wrap) and every value `v`, `push v` is defined, it returns
`false` if and only if `(head_ + 1) % capacity = tail_`, and a `push` that returns
`false` leaves the whole state (both indices and every slot) as it was. -/
theorem push_full_guard (q : LockFreeQueue T) (v : T) (hcap : 1 ≤ q.buffer_.length)
    (hhead : q.head_ < q.buffer_.length) :
    (∃ b q1, q.push v = some (b, q1)) ∧
      ((∃ q1, q.push v = some (false, q1)) ↔ (q.head_ + 1) % q.buffer_.length = q.tail_) ∧
      ∀ q1, q.push v = some (false, q1) → q1 = q := by
  have hne : q.buffer_.length ≠ 0 := by omega
  by_cases hfull : (q.head_ + 1) % q.buffer_.length = q.tail_
  · simp [push, hne, hfull]
  · simp [push, hne, hfull, hhead]

/-- C3 (empty-queue guard): for every queue state, `pop` returns no value if and only
if `head_ = tail_`, and a `pop` that returns no value leaves the whole state (both
indices and every slot) as it was. -/
theorem pop_empty_guard (q : LockFreeQueue T) :
    ((∃ q1, q.pop = some (none, q1)) ↔ q.head_ = q.tail_) ∧
      ∀ q1, q.pop = some (none, q1) → q1 = q := by
  by_cases hempty : q.tail_ = q.head_
  · simp [pop, hempty]
  · have hne : ¬ q.head_ = q.tail_ := fun e => hempty e.symm
    cases hget : q.buffer_[q.tail_]? <;> simp [pop, hempty, hne, hget]

/-- Witness of C1: capacity 3 with the calls push 7, push 8, push 9, pop. -/
theorem fifo_no_loss_witness :
    1 ≤ 3 ∧ ∃ (rs : List (QueueReturn Nat)) (q : LockFreeQueue Nat) (live : List Nat),
      (construct 3 : LockFreeQueue Nat).run
          [QueueCall.push 7, QueueCall.push 8, QueueCall.push 9, QueueCall.pop] = some (rs, q) ∧
      poppedValues rs <+: acceptedValues rs ∧
      acceptedValues rs = poppedValues rs ++ live ∧
      q.liveSlots = live.map some :=
  ⟨by decide, fifo_no_loss 3 (by decide) _⟩

/-- Witness of C2: a full queue of capacity 2 (`head_ = 0`, `tail_ = 1`). -/
theorem push_full_guard_witness :
    1 ≤ (LockFreeQueue.mk [0, 0] 0 1).buffer_.length ∧
    (LockFreeQueue.mk [0, 0] 0 1).head_ < (LockFreeQueue.mk [0, 0] 0 1).buffer_.length ∧
      ((∃ b q1, (LockFreeQueue.mk [0, 0] 0 1).push 5 = some (b, q1)) ∧
        ((∃ q1, (LockFreeQueue.mk [0, 0] 0 1).push 5 = some (false, q1)) ↔
          ((LockFreeQueue.mk [0, 0] 0 1).head_ + 1) % (LockFreeQueue.mk [0, 0] 0 1).buffer_.length
            = (LockFreeQueue.mk [0, 0] 0 1).tail_) ∧
        ∀ q1, (LockFreeQueue.mk [0, 0] 0 1).push 5 = some (false, q1) →
          q1 = LockFreeQueue.mk [0, 0] 0 1) :=
  ⟨by decide, by decide,
    push_full_guard (LockFreeQueue.mk [0, 0] 0 1) 5 (by decide) (by decide)⟩

/-- C4 (fill and drain round trip): for every capacity `n ≥ 2`, values `vs` of length
`n - 1` and a further value `d`, on a freshly constructed queue the pushes of `vs`
all return `true`, the push of `d` returns `false`, `pop` returns the first value of
`vs`, the push of `d` now returns `true`, the next `n - 1` pops return the other
values of `vs` and then `d`, in that order, and a further `pop` returns no value. -/
theorem fill_drain_round_trip [Inhabited T] (n : Nat) (vs : List T) (d : T)
    (hn : 2 ≤ n) (hlen : vs.length + 1 = n) :
    ∃ (a : T) (rest : List T) (q : LockFreeQueue T), vs = a :: rest ∧
      (construct n : LockFreeQueue T).run (fillDrainCalls vs d)
        = some (fillDrainReturns a rest d, q) := by
  cases vs with
  | nil => simp at hlen; omega
  | cons a rest =>
    simp only [List.length_cons] at hlen
    subst hlen
    obtain ⟨q, e, _⟩ := holds_run (rest.length + 1 + 1) (fillDrainCalls (a :: rest) d)
      (construct (rest.length + 1 + 1)) [] (holds_construct _ (by omega))
    rw [fifoRun_fillDrain a rest d] at e
    exact ⟨a, rest, q, rfl, e⟩

/-- Witness of C4: the case of capacity 4 with the values 10, 11, 12 and 13. -/
theorem fill_drain_round_trip_witness :
    2 ≤ 4 ∧ ([10, 11, 12] : List Nat).length + 1 = 4 ∧
      ∃ (a : Nat) (rest : List Nat) (q : LockFreeQueue Nat), [10, 11, 12] = a :: rest ∧
        (construct 4 : LockFreeQueue Nat).run (fillDrainCalls [10, 11, 12] 13)
          = some (fillDrainReturns a rest 13, q) :=
  ⟨by decide, by decide, fill_drain_round_trip 4 [10, 11, 12] 13 (by decide) (by decide)⟩

/-- C5 (usable capacity is `capacity - 1`): in every state reached from a freshly
constructed queue of capacity `n ≥ 1` by a sequence of `push` and `pop` calls, the
number of live elements (accepted pushes minus successful pops) equals
`(head_ - tail_) mod n` and is at most `n - 1`; a queue of capacity 1 accepts no push. -/
theorem usable_capacity [Inhabited T] (n : Nat) (hn : 1 ≤ n) (cs : List (QueueCall T)) :
    ∃ (rs : List (QueueReturn T)) (q : LockFreeQueue T),
      (construct n : LockFreeQueue T).run cs = some (rs, q) ∧
      liveCount rs = ((q.head_ : Int) - (q.tail_ : Int)) % (n : Int) ∧
      liveCount rs ≤ (n : Int) - 1 ∧
      (n = 1 → ∀ v, QueueReturn.pushed v true ∉ rs) := by
  obtain ⟨rs, q, l, e, h, hv, hrs⟩ := reach n hn cs
  obtain ⟨h1, h2⟩ := reach_liveCount n rs q l h hv
  refine ⟨rs, q, e, h2, ?_, ?_⟩
  · have := h.2.2.1
    omega
  · intro h1n v
    subst h1n
    rw [hrs]
    exact fifoRun_capacity_one cs [] v

/-- Witness of C5: capacity 3 with the calls push 7, push 8, push 9, pop. -/
theorem usable_capacity_witness :
    1 ≤ 3 ∧ ∃ (rs : List (QueueReturn Nat)) (q : LockFreeQueue Nat),
      (construct 3 : LockFreeQueue Nat).run
          [QueueCall.push 7, QueueCall.push 8, QueueCall.push 9, QueueCall.pop] = some (rs, q) ∧
      liveCount rs = ((q.head_ : Int) - (q.tail_ : Int)) % ((3 : Nat) : Int) ∧
      liveCount rs ≤ ((3 : Nat) : Int) - 1 ∧
      (3 = 1 → ∀ v, QueueReturn.pushed v true ∉ rs) :=
  ⟨by decide, usable_capacity 3 (by decide) _⟩

/-- C6 (empty and full characterisation): in every state reached from a freshly
constructed queue of capacity `n ≥ 1`, the queue holds zero live elements if and only
if `head_ = tail_`, and holds `n - 1` live elements if and only if
`(head_ + 1) % n = tail_`. -/
theorem empty_full_characterisation [Inhabited T] (n : Nat) (hn : 1 ≤ n)
    (cs : List (QueueCall T)) :
    ∃ (rs : List (QueueReturn T)) (q : LockFreeQueue T),
      (construct n : LockFreeQueue T).run cs = some (rs, q) ∧
      (liveCount rs = 0 ↔ q.head_ = q.tail_) ∧
      (liveCount rs = (n : Int) - 1 ↔ (q.head_ + 1) % n = q.tail_) := by
  obtain ⟨rs, q, l, e, h, hv, _⟩ := reach n hn cs
  obtain ⟨h1, _⟩ := reach_liveCount n rs q l h hv
  obtain ⟨_, ht, hl, hh, _⟩ := h
  have hnext : (q.head_ + 1) % n = (q.tail_ + (l.length + 1)) % n := by
    rw [hh, Nat.mod_add_mod, Nat.add_assoc]
  refine ⟨rs, q, e, ?_, ?_⟩
  · rw [h1, hh, wrap_eq _ n (by omega)]
    split <;> omega
  · rw [h1, hnext, wrap_eq _ n (by omega)]
    split <;> omega

/-- Witness of C6: capacity 3 with the calls push 7, push 8, pop. -/
theorem empty_full_characterisation_witness :
    1 ≤ 3 ∧ ∃ (rs : List (QueueReturn Nat)) (q : LockFreeQueue Nat),
      (construct 3 : LockFreeQueue Nat).run
          [QueueCall.push 7, QueueCall.push 8, QueueCall.pop] = some (rs, q) ∧
      (liveCount rs = 0 ↔ q.head_ = q.tail_) ∧
      (liveCount rs = ((3 : Nat) : Int) - 1 ↔ (q.head_ + 1) % 3 = q.tail_) :=
  ⟨by decide, empty_full_characterisation 3 (by decide) _⟩

/-- C15 (effect of a successful push): for every queue state whose head index lies in
the vector (so the capacity `n` is at least 1) with `(head_ + 1) % n ≠ tail_` and every
value `v`, `push v` returns `true`, the slot at the old head index now holds `v`,
`head_` becomes `(head_ + 1) % n`, and `tail_`, the number of slots and every other
slot are as they were. -/
theorem push_effect (q : LockFreeQueue T) (v : T) (hhead : q.head_ < q.buffer_.length)
    (hroom : (q.head_ + 1) % q.buffer_.length ≠ q.tail_) :
    1 ≤ q.buffer_.length ∧ ∃ q1, q.push v = some (true, q1) ∧
      q1.buffer_[q.head_]? = some v ∧
      q1.head_ = (q.head_ + 1) % q.buffer_.length ∧
      q1.tail_ = q.tail_ ∧
      q1.buffer_.length = q.buffer_.length ∧
      ∀ k, k ≠ q.head_ → q1.buffer_[k]? = q.buffer_[k]? := by
  have hne : q.buffer_.length ≠ 0 := by omega
  refine ⟨by omega,
    { q with buffer_ := q.buffer_.set q.head_ v, head_ := (q.head_ + 1) % q.buffer_.length },
    by simp [push, hne, hroom, hhead], ?_, rfl, rfl, by simp, ?_⟩
  · simp [List.getElem?_set_self hhead]
  · intro k hk
    simp [List.getElem?_set_ne (Ne.symm hk)]

/-- Witness of C15: a queue of capacity 3 holding one value, pushed a second one. -/
theorem push_effect_witness :
    (LockFreeQueue.mk [7, 0, 0] 1 0).head_ < (LockFreeQueue.mk [7, 0, 0] 1 0).buffer_.length ∧
    ((LockFreeQueue.mk [7, 0, 0] 1 0).head_ + 1) % (LockFreeQueue.mk [7, 0, 0] 1 0).buffer_.length
      ≠ (LockFreeQueue.mk [7, 0, 0] 1 0).tail_ ∧
    (1 ≤ (LockFreeQueue.mk [7, 0, 0] 1 0).buffer_.length ∧
      ∃ q1, (LockFreeQueue.mk [7, 0, 0] 1 0).push 8 = some (true, q1) ∧
      q1.buffer_[(LockFreeQueue.mk [7, 0, 0] 1 0).head_]? = some 8 ∧
      q1.head_ = ((LockFreeQueue.mk [7, 0, 0] 1 0).head_ + 1)
        % (LockFreeQueue.mk [7, 0, 0] 1 0).buffer_.length ∧
      q1.tail_ = (LockFreeQueue.mk [7, 0, 0] 1 0).tail_ ∧
      q1.buffer_.length = (LockFreeQueue.mk [7, 0, 0] 1 0).buffer_.length ∧
      ∀ k, k ≠ (LockFreeQueue.mk [7, 0, 0] 1 0).head_ →
        q1.buffer_[k]? = (LockFreeQueue.mk [7, 0, 0] 1 0).buffer_[k]?) :=
  ⟨by decide, by decide, push_effect (LockFreeQueue.mk [7, 0, 0] 1 0) 8 (by decide) (by decide)⟩

/-- C16 (effect of a successful pop): for every queue state whose tail index lies in the
vector (so the capacity `n` is at least 1) with `head_ ≠ tail_`, `pop` returns the
value stored in the slot at the old tail index, `tail_` becomes `(tail_ + 1) % n`, and
`head_` and every buffer slot are as they were. -/
theorem pop_effect (q : LockFreeQueue T) (htail : q.tail_ < q.buffer_.length)
    (hne : q.head_ ≠ q.tail_) :
    1 ≤ q.buffer_.length ∧ ∃ x q1, q.buffer_[q.tail_]? = some x ∧
      q.pop = some (some x, q1) ∧
      q1.tail_ = (q.tail_ + 1) % q.buffer_.length ∧
      q1.head_ = q.head_ ∧
      q1.buffer_ = q.buffer_ := by
  have hget : q.buffer_[q.tail_]? = some (q.buffer_[q.tail_]) := List.getElem?_eq_getElem htail
  have hne1 : ¬ q.tail_ = q.head_ := fun e => hne e.symm
  refine ⟨by omega, q.buffer_[q.tail_],
    { q with tail_ := (q.tail_ + 1) % q.buffer_.length }, hget, ?_, rfl, rfl, rfl⟩
  simp only [pop, if_neg hne1]
  rw [hget]

/-- Witness of C16: a queue of capacity 3 holding the value 7 in slot 0. -/
theorem pop_effect_witness :
    (LockFreeQueue.mk [7, 0, 0] 1 0).tail_ < (LockFreeQueue.mk [7, 0, 0] 1 0).buffer_.length ∧
    (LockFreeQueue.mk [7, 0, 0] 1 0).head_ ≠ (LockFreeQueue.mk [7, 0, 0] 1 0).tail_ ∧
    (1 ≤ (LockFreeQueue.mk [7, 0, 0] 1 0).buffer_.length ∧
      ∃ x q1, (LockFreeQueue.mk [7, 0, 0] 1 0).buffer_[(LockFreeQueue.mk [7, 0, 0] 1 0).tail_]?
          = some x ∧
        (LockFreeQueue.mk [7, 0, 0] 1 0).pop = some (some x, q1) ∧
        q1.tail_ = ((LockFreeQueue.mk [7, 0, 0] 1 0).tail_ + 1)
          % (LockFreeQueue.mk [7, 0, 0] 1 0).buffer_.length ∧
        q1.head_ = (LockFreeQueue.mk [7, 0, 0] 1 0).head_ ∧
        q1.buffer_ = (LockFreeQueue.mk [7, 0, 0] 1 0).buffer_) :=
  ⟨by decide, by decide, pop_effect (LockFreeQueue.mk [7, 0, 0] 1 0) (by decide) (by decide)⟩

/-- C18 (ring indices stay in bounds): for every capacity `n ≥ 1` and every sequence of
`push` and `pop` calls on a freshly constructed queue, the run is defined (no slot
access outside the vector, no modulus by zero), the state reached has `n` slots with
`head_ < n` and `tail_ < n`, and whichever call comes next is defined as well. -/
theorem indices_in_bounds [Inhabited T] (n : Nat) (hn : 1 ≤ n) (cs : List (QueueCall T)) :
    ∃ (rs : List (QueueReturn T)) (q : LockFreeQueue T),
      (construct n : LockFreeQueue T).run cs = some (rs, q) ∧
      q.buffer_.length = n ∧ q.head_ < n ∧ q.tail_ < n ∧
      ∀ c : QueueCall T, ∃ r q1, q.call c = some (r, q1) := by
  obtain ⟨rs, q, l, e, h, _, _⟩ := reach n hn cs
  refine ⟨rs, q, e, h.1, ?_, h.2.1, ?_⟩
  · rw [h.2.2.2.1]
    exact Nat.mod_lt _ (by omega)
  · intro c
    obtain ⟨q1, e1, _⟩ := holds_call n q l c h
    exact ⟨_, q1, e1⟩

/-- Witness of C18: capacity 2 with the calls push 7, pop, push 8, push 9. -/
theorem indices_in_bounds_witness :
    1 ≤ 2 ∧ ∃ (rs : List (QueueReturn Nat)) (q : LockFreeQueue Nat),
      (construct 2 : LockFreeQueue Nat).run
          [QueueCall.push 7, QueueCall.pop, QueueCall.push 8, QueueCall.push 9] = some (rs, q) ∧
      q.buffer_.length = 2 ∧ q.head_ < 2 ∧ q.tail_ < 2 ∧
      ∀ c : QueueCall Nat, ∃ r q1, q.call c = some (r, q1) :=
  ⟨by decide, indices_in_bounds 2 (by decide) _⟩

end LockFreeQueue

/-! ## Lemmas on `MemoryPool` -/

namespace MemoryPool

variable {T : Type}

theorem construct_succ [Inhabited T] (n : Nat) :
    (construct (n + 1) : MemoryPool T)
      = { store_ := (construct n : MemoryPool T).store_ ++ [default],
          free_indices_ := (construct n : MemoryPool T).free_indices_ ++ [n] } := by
  simp [construct, List.range_succ]

theorem construct_eq [Inhabited T] (n : Nat) :
    (construct n : MemoryPool T)
      = { store_ := List.replicate n default, free_indices_ := List.range n } := by
  induction n with
  | zero => simp [construct]
  | succ n ih =>
    rw [construct_succ, ih]
    simp only [List.range_succ]
    congr 1
    apply List.ext_getElem?
    intro k
    simp only [List.getElem?_append, List.getElem?_replicate, List.length_replicate]
    by_cases h1 : k < n
    · simp [h1, Nat.lt_succ_of_lt h1]
    · by_cases h2 : k = n
      · subst h2
        simp
      · have h3 : ¬ k < n + 1 := by omega
        have h4 : k - n ≠ 0 := by omega
        simp [h1, h3, h4]
        omega

theorem allocate_concat (store : List T) (f : List Nat) (x : Nat) :
    (MemoryPool.mk store (f ++ [x])).allocate
      = (.ok (x : Int), MemoryPool.mk store f) := by
  simp [allocate]

theorem allocate_nil (store : List T) :
    (MemoryPool.mk store []).allocate = (.error .exhausted, MemoryPool.mk store []) := by
  simp [allocate]

theorem allocateMany_reverse (store : List T) (g : List Nat) :
    ∀ f : List Nat, (MemoryPool.mk store (f ++ g.reverse)).allocateMany g.length
      = (g.map (fun (x : Nat) => (Except.ok (x : Int) : Except PoolError Int)),
          MemoryPool.mk store f) := by
  induction g with
  | nil => intro f; simp [allocateMany]
  | cons x g ih =>
    intro f
    have e : f ++ (x :: g).reverse = (f ++ g.reverse) ++ [x] := by simp
    rw [e]
    simp only [List.length_cons, allocateMany, allocate_concat, ih, List.map_cons]

theorem free_nil_or_concat (p : MemoryPool T) :
    p.free_indices_ = [] ∨ ∃ f x, p.free_indices_ = f ++ [x] := by
  rcases List.eq_nil_or_concat p.free_indices_ with h | ⟨f, x, h⟩
  · exact Or.inl h
  · exact Or.inr ⟨f, x, by rw [h, List.concat_eq_append]⟩

theorem deallocate_in_range (p : MemoryPool T) (i : Nat) (h : i < p.store_.length) :
    p.deallocate (i : Int)
      = (.ok (), { p with free_indices_ := p.free_indices_ ++ [i] }) := by
  simp [deallocate]
  omega

/-- Under disciplined use the free indices together with the checked-out handles stay
a permutation of `0, …, n - 1`, and the store keeps its `n` slots. -/
theorem disciplined_perm (n : Nat) (cs : List PoolCall) :
    ∀ (p : MemoryPool T) (out : List Int), p.store_.length = n →
      List.Perm (p.free_indices_.map Int.ofNat ++ out) ((List.range n).map Int.ofNat) →
      Disciplined out (p.run cs).1 →
      (p.run cs).2.store_.length = n ∧
        List.Perm ((p.run cs).2.free_indices_.map Int.ofNat ++ checkedOut out (p.run cs).1)
          ((List.range n).map Int.ofNat) := by
  induction cs with
  | nil =>
    intro p out hs hp _
    exact ⟨hs, hp⟩
  | cons c cs ih =>
    intro p out hs hp hd
    cases c with
    | allocate =>
      rcases free_nil_or_concat p with hf | ⟨f, x, hf⟩
      · have e : p.allocate = (.error .exhausted, p) := by simp [allocate, hf]
        simp only [run, call, e, Disciplined, checkedOutStep] at hd
        have := ih p out hs hp hd
        simpa [run, call, e, checkedOut, checkedOutStep] using this
      · have e : p.allocate = (.ok (x : Int), { p with free_indices_ := f }) := by
          simp [allocate, hf]
        simp only [run, call, e, Disciplined, checkedOutStep] at hd
        have hp1 : List.Perm (f.map Int.ofNat ++ (x : Int) :: out)
            ((List.range n).map Int.ofNat) := by
          refine List.Perm.trans ?_ hp
          rw [hf]
          simp
        have := ih { p with free_indices_ := f } ((x : Int) :: out) hs hp1 hd
        simpa [run, call, e, checkedOut, checkedOutStep] using this
    | deallocate h =>
      have hmem : h ∈ out := by
        simp only [run, call, Disciplined] at hd
        exact hd.1
      have hin : h ∈ (List.range n).map Int.ofNat :=
        hp.mem_iff.mp (List.mem_append_right _ hmem)
      obtain ⟨i, hi, rfl⟩ := List.mem_map.mp hin
      have hlt : i < p.store_.length := by
        rw [hs]
        exact List.mem_range.mp hi
      have e := deallocate_in_range p i hlt
      simp only [Int.ofNat_eq_coe] at hd hmem ⊢
      simp only [run, call, e, Disciplined, checkedOutStep] at hd
      have hp1 : List.Perm ((p.free_indices_ ++ [i]).map Int.ofNat ++ out.erase (i : Int))
          ((List.range n).map Int.ofNat) := by
        refine List.Perm.trans ?_ hp
        have h1 := (List.perm_cons_erase hmem).symm
        have h2 : List.Perm ((p.free_indices_ ++ [i]).map Int.ofNat ++ out.erase (i : Int))
            (p.free_indices_.map Int.ofNat ++ (i : Int) :: out.erase (i : Int)) := by
          simp
        exact h2.trans (List.Perm.append_left _ h1)
      have := ih { p with free_indices_ := p.free_indices_ ++ [i] } (out.erase (i : Int))
        hs hp1 hd.2
      simpa [run, call, e, checkedOut, checkedOutStep] using this

theorem disciplined_perm_construct [Inhabited T] (n : Nat) (cs : List PoolCall)
    (hd : Disciplined [] ((construct n : MemoryPool T).run cs).1) :
    ((construct n : MemoryPool T).run cs).2.store_.length = n ∧
      List.Perm
        (((construct n : MemoryPool T).run cs).2.free_indices_.map Int.ofNat
          ++ checkedOut [] ((construct n : MemoryPool T).run cs).1)
        ((List.range n).map Int.ofNat) := by
  apply disciplined_perm n cs (construct n) [] _ _ hd
  · simp [construct_eq]
  · simp [construct_eq]

theorem allocate_store (p : MemoryPool T) : p.allocate.2.store_ = p.store_ := by
  rcases free_nil_or_concat p with hf | ⟨f, x, hf⟩ <;> simp [allocate, hf]

theorem deallocate_store (p : MemoryPool T) (h : Int) : (p.deallocate h).2.store_ = p.store_ := by
  by_cases hg : h < 0 ∨ h.toNat ≥ p.store_.length <;> simp [deallocate, hg]

theorem run_store (cs : List PoolCall) :
    ∀ p : MemoryPool T, (p.run cs).2.store_ = p.store_ := by
  induction cs with
  | nil => intro p; rfl
  | cons c cs ih =>
    intro p
    cases c with
    | allocate => simp [run, call, ih, allocate_store]
    | deallocate h => simp [run, call, ih, deallocate_store]

theorem deallocate_ok (p : MemoryPool T) (h : Int) (hok : (p.deallocate h).1 = .ok ()) :
    ∃ i : Nat, h = (i : Int) ∧ i < p.store_.length ∧
      p.deallocate h = (.ok (), { p with free_indices_ := p.free_indices_ ++ [i] }) := by
  by_cases hg : h < 0 ∨ h.toNat ≥ p.store_.length
  · simp [deallocate, hg] at hok
  · have h0 : 0 ≤ h := by omega
    have e : h = (h.toNat : Int) := (Int.toNat_of_nonneg h0).symm
    refine ⟨h.toNat, e, by omega, ?_⟩
    simp [deallocate, hg]

/-- Whatever the calls, the free indices stay below the number of slots, and so do the
handles returned by `allocate`. -/
theorem run_in_range (cs : List PoolCall) :
    ∀ p : MemoryPool T, (∀ i ∈ p.free_indices_, i < p.store_.length) →
      (∀ i ∈ (p.run cs).2.free_indices_, i < p.store_.length) ∧
      ∀ h : Int, PoolReturn.allocated (.ok h) ∈ (p.run cs).1 →
        0 ≤ h ∧ h < (p.store_.length : Int) := by
  induction cs with
  | nil =>
    intro p hp
    exact ⟨hp, by simp [run]⟩
  | cons c cs ih =>
    intro p hp
    cases c with
    | allocate =>
      rcases free_nil_or_concat p with hf | ⟨f, x, hf⟩
      · have e : p.allocate = (.error .exhausted, p) := by simp [allocate, hf]
        have := ih p hp
        simpa [run, call, e] using this
      · have e : p.allocate = (.ok (x : Int), { p with free_indices_ := f }) := by
          simp [allocate, hf]
        have hx : x < p.store_.length := hp x (by simp [hf])
        have hp1 : ∀ i ∈ f, i < p.store_.length := fun i hi => hp i (by simp [hf, hi])
        obtain ⟨h1, h2⟩ := ih { p with free_indices_ := f } hp1
        refine ⟨by simpa [run, call, e] using h1, ?_⟩
        intro h hh
        simp only [run, call, e, List.mem_cons] at hh
        rcases hh with hh | hh
        · have e2 : h = (x : Int) := by
            injection hh with e3
            injection e3
          rw [e2]
          omega
        · exact h2 h hh
    | deallocate ptr =>
      by_cases hg : ptr < 0 ∨ ptr.toNat ≥ p.store_.length
      · have e : p.deallocate ptr = (.error .foreignPointer, p) := by simp [deallocate, hg]
        have := ih p hp
        simpa [run, call, e] using this
      · have e : p.deallocate ptr
            = (.ok (), { p with free_indices_ := p.free_indices_ ++ [ptr.toNat] }) := by
          simp [deallocate, hg]
        have hp1 : ∀ i ∈ p.free_indices_ ++ [ptr.toNat], i < p.store_.length := by
          intro i hi
          rcases List.mem_append.mp hi with hi | hi
          · exact hp i hi
          · have : i = ptr.toNat := by simpa using hi
            omega
        have := ih { p with free_indices_ := p.free_indices_ ++ [ptr.toNat] } hp1
        simpa [run, call, e] using this

/-! ## Claims on `MemoryPool` -/

/-- C7 (pool exhaustion and recovery): for every size `n ≥ 1`, on a freshly constructed
pool `n` consecutive `allocate` calls all succeed and return `n` pairwise distinct
handles `hs`; the next `allocate` throws the exhaustion error; `deallocate` on the
first handle obtained then succeeds; and the `allocate` that follows succeeds. -/
theorem pool_exhaustion_recovery [Inhabited T] (n : Nat) (hn : 1 ≤ n) :
    ∃ (hs : List Int) (p1 : MemoryPool T) (h0 : Int) (p2 : MemoryPool T) (h1 : Int)
      (p3 : MemoryPool T),
      (construct n : MemoryPool T).allocateMany n
        = (hs.map (fun h => (Except.ok h : Except PoolError Int)), p1) ∧
      hs.length = n ∧ hs.Nodup ∧
      p1.allocate = (.error .exhausted, p1) ∧
      hs.head? = some h0 ∧
      p1.deallocate h0 = (.ok (), p2) ∧
      p2.allocate = (.ok h1, p3) := by
  obtain ⟨m, rfl⟩ : ∃ m, n = m + 1 := ⟨n - 1, by omega⟩
  have hmany := allocateMany_reverse (List.replicate (m + 1) (default : T))
    (List.range (m + 1)).reverse []
  simp only [List.reverse_reverse, List.nil_append, List.length_reverse,
    List.length_range] at hmany
  refine ⟨(List.range (m + 1)).reverse.map (fun (x : Nat) => (x : Int)),
    MemoryPool.mk (List.replicate (m + 1) default) [], (m : Int),
    MemoryPool.mk (List.replicate (m + 1) default) [m], (m : Int),
    MemoryPool.mk (List.replicate (m + 1) default) [], ?_, ?_, ?_, ?_, ?_, ?_, ?_⟩
  · rw [construct_eq, hmany, List.map_map]
    rfl
  · simp
  · exact List.Nodup.map Nat.cast_injective (List.nodup_reverse.mpr (List.nodup_range _))
  · exact allocate_nil _
  · simp [List.range_succ]
  · have := deallocate_in_range (MemoryPool.mk (List.replicate (m + 1) (default : T)) []) m
      (by simp)
    simpa using this
  · exact allocate_concat _ [] m

/-- Witness of C7: the case of a pool of two slots. -/
theorem pool_exhaustion_recovery_witness :
    1 ≤ 2 ∧
    ∃ (hs : List Int) (p1 : MemoryPool Nat) (h0 : Int) (p2 : MemoryPool Nat) (h1 : Int)
      (p3 : MemoryPool Nat),
      (construct 2 : MemoryPool Nat).allocateMany 2
        = (hs.map (fun h => (Except.ok h : Except PoolError Int)), p1) ∧
      hs.length = 2 ∧ hs.Nodup ∧
      p1.allocate = (.error .exhausted, p1) ∧
      hs.head? = some h0 ∧
      p1.deallocate h0 = (.ok (), p2) ∧
      p2.allocate = (.ok h1, p3) :=
  ⟨by decide, pool_exhaustion_recovery 2 (by decide)⟩

/-- C8 (contract of `allocate`): for every pool state, `allocate` throws the exhaustion
error if and only if the free list is empty, and then leaves the free list and the
store as they were; otherwise it removes exactly the last index of the free list and
returns the handle of that slot, the rest of the free list and the store being as
they were. -/
theorem allocate_contract (p : MemoryPool T) :
    (p.allocate.1 = .error .exhausted ↔ p.free_indices_ = []) ∧
    (p.free_indices_ = [] → p.allocate.2 = p) ∧
    (p.free_indices_ ≠ [] → ∃ index : Nat,
      p.free_indices_.getLast? = some index ∧
      p.allocate.1 = .ok (index : Int) ∧
      p.free_indices_ = p.allocate.2.free_indices_ ++ [index] ∧
      p.allocate.2.store_ = p.store_) := by
  rcases free_nil_or_concat p with hf | ⟨f, x, hf⟩
  · simp [allocate, hf]
  · refine ⟨by simp [allocate, hf], by simp [hf], fun _ => ⟨x, ?_⟩⟩
    simp [allocate, hf]

/-- Witness of C8: a pool of two slots with both indices free; `allocate` hands out
slot 1. -/
theorem allocate_contract_witness :
    (MemoryPool.mk [5, 6] [0, 1]).free_indices_ ≠ [] ∧ ∃ index : Nat,
      (MemoryPool.mk [5, 6] [0, 1]).free_indices_.getLast? = some index ∧
      (MemoryPool.mk [5, 6] [0, 1]).allocate.1 = .ok (index : Int) ∧
      (MemoryPool.mk [5, 6] [0, 1]).free_indices_
        = (MemoryPool.mk [5, 6] [0, 1]).allocate.2.free_indices_ ++ [index] ∧
      (MemoryPool.mk [5, 6] [0, 1]).allocate.2.store_ = (MemoryPool.mk [5, 6] [0, 1]).store_ :=
  ⟨by decide, (allocate_contract (MemoryPool.mk [5, 6] [0, 1])).2.2 (by decide)⟩

/-- C9 (contract of `deallocate`): for every pool state of size `n = store_.size()` and
every handle at signed slot index `i`, `deallocate` throws the invalid-handle error
if and only if `i < 0` or `i ≥ n`, and then leaves the free list and the store as
they were; otherwise it appends `i` at the end of the free list and changes
nothing else. -/
theorem deallocate_contract (p : MemoryPool T) (i : Int) :
    ((p.deallocate i).1 = .error .foreignPointer ↔ (i < 0 ∨ (p.store_.length : Int) ≤ i)) ∧
    ((i < 0 ∨ (p.store_.length : Int) ≤ i) → (p.deallocate i).2 = p) ∧
    (¬ (i < 0 ∨ (p.store_.length : Int) ≤ i) →
      (p.deallocate i).1 = .ok () ∧
      (p.deallocate i).2.free_indices_ = p.free_indices_ ++ [i.toNat] ∧
      (p.deallocate i).2.store_ = p.store_) := by
  have key : (i < 0 ∨ i.toNat ≥ p.store_.length) ↔ (i < 0 ∨ (p.store_.length : Int) ≤ i) := by
    omega
  by_cases h : i < 0 ∨ (p.store_.length : Int) ≤ i
  · have h1 := key.mpr h
    simp [deallocate, h, h1]
  · have h1 : ¬ (i < 0 ∨ i.toNat ≥ p.store_.length) := fun c => h (key.mp c)
    simp [deallocate, h, h1]

/-- Witness of C9: a pool of two slots, slot 0 free, and the handle of slot 1. -/
theorem deallocate_contract_witness :
    ¬ ((1 : Int) < 0 ∨ ((MemoryPool.mk [5, 6] [0]).store_.length : Int) ≤ 1) ∧
      ((MemoryPool.mk [5, 6] [0]).deallocate 1).1 = .ok () ∧
      ((MemoryPool.mk [5, 6] [0]).deallocate 1).2.free_indices_
        = (MemoryPool.mk [5, 6] [0]).free_indices_ ++ [(1 : Int).toNat] ∧
      ((MemoryPool.mk [5, 6] [0]).deallocate 1).2.store_ = (MemoryPool.mk [5, 6] [0]).store_ :=
  ⟨by decide, (deallocate_contract (MemoryPool.mk [5, 6] [0]) 1).2.2 (by decide)⟩

/-- C10, the claim as stated, fails: on a pool of one slot the calls `allocate`,
`deallocate` of the handle obtained and `deallocate` of the same handle again leave
the index 0 twice in the free list. -/
theorem pool_invariant_fails_on_double_free :
    ¬ ((((construct 1 : MemoryPool Nat).run
          [PoolCall.allocate, PoolCall.deallocate 0, PoolCall.deallocate 0]).2.free_indices_).Nodup ∧
        ∀ h ∈ checkedOut [] ((construct 1 : MemoryPool Nat).run
              [PoolCall.allocate, PoolCall.deallocate 0, PoolCall.deallocate 0]).1,
          ∃! i : Nat, h = (i : Int) ∧
            i ∉ ((construct 1 : MemoryPool Nat).run
              [PoolCall.allocate, PoolCall.deallocate 0, PoolCall.deallocate 0]).2.free_indices_) := by
  intro h
  exact absurd h.1 (by decide)

/-- C10 as amended (pool invariant under disciplined use): in every state reached from a
freshly constructed pool by a sequence of `allocate` and `deallocate` calls in which
`deallocate` is only called on a handle checked out at that time, each index appears
in the free list at most once, and every handle checked out is exactly one index,
which is not in the free list. -/
theorem pool_invariant_disciplined [Inhabited T] (n : Nat) (cs : List PoolCall)
    (hd : Disciplined [] ((construct n : MemoryPool T).run cs).1) :
    ((construct n : MemoryPool T).run cs).2.free_indices_.Nodup ∧
      ∀ h ∈ checkedOut [] ((construct n : MemoryPool T).run cs).1,
        ∃! i : Nat, h = (i : Int) ∧
          i ∉ ((construct n : MemoryPool T).run cs).2.free_indices_ := by
  obtain ⟨_, hp⟩ := disciplined_perm_construct n cs hd
  have hnd : (((construct n : MemoryPool T).run cs).2.free_indices_.map Int.ofNat
      ++ checkedOut [] ((construct n : MemoryPool T).run cs).1).Nodup :=
    hp.nodup_iff.mpr (List.Nodup.map (fun _ _ e => Int.ofNat.inj e) (List.nodup_range n))
  obtain ⟨hfree, _, hdisj⟩ := List.nodup_append.mp hnd
  refine ⟨List.Nodup.of_map _ hfree, ?_⟩
  intro h hh
  have hin : h ∈ (List.range n).map Int.ofNat :=
    hp.mem_iff.mp (List.mem_append_right _ hh)
  obtain ⟨i, _, rfl⟩ := List.mem_map.mp hin
  refine ⟨i, ⟨rfl, ?_⟩, ?_⟩
  · intro hi
    exact hdisj (List.mem_map.mpr ⟨i, hi, rfl⟩) hh
  · intro j hj
    exact (Int.ofNat.inj hj.1).symm

/-- Witness of C10 as amended: a pool of two slots with the calls `allocate`,
`allocate`, `deallocate` of the handle 1 and `allocate`. -/
theorem pool_invariant_disciplined_witness :
    Disciplined [] ((construct 2 : MemoryPool Nat).run
        [PoolCall.allocate, PoolCall.allocate, PoolCall.deallocate 1, PoolCall.allocate]).1 ∧
    (((construct 2 : MemoryPool Nat).run
        [PoolCall.allocate, PoolCall.allocate, PoolCall.deallocate 1,
          PoolCall.allocate]).2.free_indices_.Nodup ∧
      ∀ h ∈ checkedOut [] ((construct 2 : MemoryPool Nat).run
          [PoolCall.allocate, PoolCall.allocate, PoolCall.deallocate 1, PoolCall.allocate]).1,
        ∃! i : Nat, h = (i : Int) ∧
          i ∉ ((construct 2 : MemoryPool Nat).run
            [PoolCall.allocate, PoolCall.allocate, PoolCall.deallocate 1,
              PoolCall.allocate]).2.free_indices_) :=
  ⟨by decide, pool_invariant_disciplined 2 _ (by decide)⟩

/-- C11 (stack reuse, last freed is first reused): for every pool state and every handle
`h` whose `deallocate h` succeeds, the `allocate` called immediately afterwards
succeeds and returns `h`, and after the pair of calls the free list, and indeed the
whole pool, is as it was before. -/
theorem stack_reuse (p : MemoryPool T) (h : Int) (hok : (p.deallocate h).1 = .ok ()) :
    (p.deallocate h).2.allocate.1 = .ok h ∧
      (p.deallocate h).2.allocate.2.free_indices_ = p.free_indices_ ∧
      (p.deallocate h).2.allocate.2 = p := by
  obtain ⟨i, rfl, _, e⟩ := deallocate_ok p h hok
  rw [e]
  simp [allocate]

/-- Witness of C11: a pool of two slots, slot 0 free, and the handle of slot 1. -/
theorem stack_reuse_witness :
    ((MemoryPool.mk [5, 6] [0]).deallocate 1).1 = .ok () ∧
      (((MemoryPool.mk [5, 6] [0]).deallocate 1).2.allocate.1 = .ok 1 ∧
        ((MemoryPool.mk [5, 6] [0]).deallocate 1).2.allocate.2.free_indices_
          = (MemoryPool.mk [5, 6] [0]).free_indices_ ∧
        ((MemoryPool.mk [5, 6] [0]).deallocate 1).2.allocate.2 = MemoryPool.mk [5, 6] [0]) :=
  ⟨rfl, stack_reuse (MemoryPool.mk [5, 6] [0]) 1 rfl⟩

/-- C12 (slot contents are never reset): for every pool state, `allocate` and
`deallocate`, whether they succeed or throw, and any sequence of such calls, leave the
store (the number of slots and the contents of every slot) as it was; so a slot
holding a written value `v` that is freed and allocated again is handed out still
holding `v`. -/
theorem store_never_reset (p : MemoryPool T) :
    p.allocate.2.store_ = p.store_ ∧
    (∀ h : Int, (p.deallocate h).2.store_ = p.store_) ∧
    (∀ cs : List PoolCall, (p.run cs).2.store_ = p.store_) ∧
    (∀ (h : Int) (v : T), p.store_[h.toNat]? = some v → (p.deallocate h).1 = .ok () →
      (p.deallocate h).2.allocate.1 = .ok h ∧
      (p.deallocate h).2.allocate.2.store_[h.toNat]? = some v) := by
  refine ⟨allocate_store p, deallocate_store p, fun cs => run_store cs p, ?_⟩
  intro h v hv hok
  obtain ⟨i, rfl, _, e⟩ := deallocate_ok p _ hok
  rw [e]
  simpa [allocate] using hv

/-- Witness of C12: slot 1 of a pool of two slots holds the written value 6 and is freed
and allocated again. -/
theorem store_never_reset_witness :
    (MemoryPool.mk [5, 6] [0]).store_[(1 : Int).toNat]? = some 6 ∧
    ((MemoryPool.mk [5, 6] [0]).deallocate 1).1 = .ok () ∧
    (((MemoryPool.mk [5, 6] [0]).deallocate 1).2.allocate.1 = .ok 1 ∧
      ((MemoryPool.mk [5, 6] [0]).deallocate 1).2.allocate.2.store_[(1 : Int).toNat]? = some 6) :=
  ⟨rfl, rfl, (store_never_reset (MemoryPool.mk [5, 6] [0])).2.2.2 1 6 rfl rfl⟩

/-- C13 (pool construction): for every size `n`, a freshly constructed pool has exactly
`n` slots, each holding the default value of `T`, and a free list of length `n` in
which every index `0, …, n - 1` occurs exactly once (it is the list `0, …, n - 1` in
ascending order). -/
theorem construct_contents [Inhabited T] (n : Nat) :
    (construct n : MemoryPool T).store_.length = n ∧
    (∀ x ∈ (construct n : MemoryPool T).store_, x = default) ∧
    (construct n : MemoryPool T).free_indices_.length = n ∧
    (∀ i, i < n → (construct n : MemoryPool T).free_indices_.count i = 1) ∧
    (construct n : MemoryPool T).free_indices_ = List.range n := by
  rw [construct_eq]
  refine ⟨by simp, ?_, by simp, ?_, rfl⟩
  · intro x hx
    exact (List.mem_replicate.mp hx).2
  · intro i hi
    exact List.count_eq_one_of_mem (List.nodup_range n) (List.mem_range.mpr hi)

/-- Witness of C13: in a pool of three slots the index 2 occurs once in the free list. -/
theorem construct_contents_witness :
    2 < 3 ∧ (construct 3 : MemoryPool Nat).free_indices_.count 2 = 1 :=
  ⟨by decide, (construct_contents 3).2.2.2.1 2 (by decide)⟩

/-- C17, the claim as stated, fails: on a fresh pool of two slots the first `allocate`
returns the slot with index 1, not the slot with index `1 - 1 = 0`. -/
theorem first_allocation_not_ascending :
    ¬ (((construct 2 : MemoryPool Nat).allocateMany 2).1[1 - 1]?
        = some (Except.ok (((1 - 1 : Nat) : Int)))) := by
  have e : ((construct 2 : MemoryPool Nat).allocateMany 2).1[1 - 1]?
      = some (Except.ok (1 : Int)) := rfl
  rw [e]
  intro h
  injection h with h1
  injection h1 with h2
  exact absurd h2 (by decide)

/-- C17 as amended (first-cycle allocation order): on a freshly constructed pool of size
`n`, with no `deallocate` in between, the first allocations proceed in descending
index order: for every `k` with `1 ≤ k ≤ n` the `k`-th `allocate` returns the slot
with index `n - k`. -/
theorem first_cycle_descending [Inhabited T] (n k : Nat) (hk1 : 1 ≤ k) (hkn : k ≤ n) :
    ((construct n : MemoryPool T).allocateMany n).1[k - 1]?
      = some (Except.ok (((n - k : Nat) : Int))) := by
  have hmany := allocateMany_reverse (List.replicate n (default : T)) (List.range n).reverse []
  simp only [List.reverse_reverse, List.nil_append, List.length_reverse,
    List.length_range] at hmany
  rw [construct_eq, hmany]
  simp only [List.getElem?_map]
  rw [List.getElem?_reverse (by simp; omega)]
  have hidx : (List.range n).length - 1 - (k - 1) = n - k := by simp; omega
  rw [hidx, List.getElem?_range (by omega)]
  rfl

/-- Witness of C17 as amended: of three allocations on a pool of three slots the second
returns slot 1 and, by the same theorem, the first returns slot 2. -/
theorem first_cycle_descending_witness :
    1 ≤ 1 ∧ 1 ≤ 3 ∧
      ((construct 3 : MemoryPool Nat).allocateMany 3).1[1 - 1]?
        = some (Except.ok (((3 - 1 : Nat) : Int))) :=
  ⟨by decide, by decide, first_cycle_descending 3 1 (by decide) (by decide)⟩

/-- C19 (free-list entries stay in range, also under misuse): for every size `n` and
every sequence of `allocate` and `deallocate` calls with arbitrary handles on a freshly
constructed pool, the store keeps its `n` slots, every index in the free list is
below `n`, and every handle returned by a successful `allocate` is the offset of a
slot inside the store. -/
theorem free_list_in_range [Inhabited T] (n : Nat) (cs : List PoolCall) :
    ((construct n : MemoryPool T).run cs).2.store_.length = n ∧
    (∀ i ∈ ((construct n : MemoryPool T).run cs).2.free_indices_, i < n) ∧
    (∀ h : Int, PoolReturn.allocated (.ok h) ∈ ((construct n : MemoryPool T).run cs).1 →
      0 ≤ h ∧ h < (n : Int)) := by
  have hlen : (construct n : MemoryPool T).store_.length = n := by simp [construct_eq]
  have hfree : ∀ i ∈ (construct n : MemoryPool T).free_indices_,
      i < (construct n : MemoryPool T).store_.length := by
    intro i hi
    rw [hlen]
    rw [construct_eq] at hi
    exact List.mem_range.mp hi
  obtain ⟨h1, h2⟩ := run_in_range cs (construct n : MemoryPool T) hfree
  rw [hlen] at h1 h2
  exact ⟨by rw [run_store, hlen], h1, h2⟩

/-- Witness of C19: on a pool of one slot a `deallocate` of the never allocated handle 0
is followed by an `allocate`, which returns the handle 0, inside the store. -/
theorem free_list_in_range_witness :
    PoolReturn.allocated (.ok 0) ∈ ((construct 1 : MemoryPool Nat).run
        [PoolCall.deallocate 0, PoolCall.allocate]).1 ∧
      ((0 : Int) ≤ 0 ∧ (0 : Int) < ((1 : Nat) : Int)) :=
  ⟨List.Mem.tail _ (List.Mem.head _),
    (@free_list_in_range Nat _ 1 [PoolCall.deallocate 0, PoolCall.allocate]).2.2 0
      (List.Mem.tail _ (List.Mem.head _))⟩

/-- C20 (under disciplined use the pool partitions its slots): for every sequence of
calls on a freshly constructed pool of size `n` in which `deallocate` is only called
on a handle checked out at that time, the free list has no duplicates, no two
checked-out handles are equal, no free index is checked out, a handle is free or
checked out exactly if it is one of `0, …, n - 1`, and the length of the free list
plus the number of checked-out handles is `n`. -/
theorem pool_partition_disciplined [Inhabited T] (n : Nat) (cs : List PoolCall)
    (hd : Disciplined [] ((construct n : MemoryPool T).run cs).1) :
    ((construct n : MemoryPool T).run cs).2.free_indices_.Nodup ∧
    (checkedOut [] ((construct n : MemoryPool T).run cs).1).Nodup ∧
    (∀ i : Nat, i ∈ ((construct n : MemoryPool T).run cs).2.free_indices_ →
      (i : Int) ∉ checkedOut [] ((construct n : MemoryPool T).run cs).1) ∧
    (∀ h : Int,
      ((∃ i : Nat, i ∈ ((construct n : MemoryPool T).run cs).2.free_indices_ ∧ h = (i : Int)) ∨
        h ∈ checkedOut [] ((construct n : MemoryPool T).run cs).1)
      ↔ ∃ i : Nat, i < n ∧ h = (i : Int)) ∧
    ((construct n : MemoryPool T).run cs).2.free_indices_.length
      + (checkedOut [] ((construct n : MemoryPool T).run cs).1).length = n := by
  obtain ⟨_, hp⟩ := disciplined_perm_construct n cs hd
  have hnd : (((construct n : MemoryPool T).run cs).2.free_indices_.map Int.ofNat
      ++ checkedOut [] ((construct n : MemoryPool T).run cs).1).Nodup :=
    hp.nodup_iff.mpr (List.Nodup.map (fun _ _ e => Int.ofNat.inj e) (List.nodup_range n))
  obtain ⟨hfree, hout, hdisj⟩ := List.nodup_append.mp hnd
  refine ⟨List.Nodup.of_map _ hfree, hout, ?_, ?_, ?_⟩
  · intro i hi hin
    exact hdisj (List.mem_map.mpr ⟨i, hi, rfl⟩) hin
  · intro h
    constructor
    · intro hh
      have hmem : h ∈ ((construct n : MemoryPool T).run cs).2.free_indices_.map Int.ofNat
          ++ checkedOut [] ((construct n : MemoryPool T).run cs).1 := by
        rcases hh with ⟨i, hi, rfl⟩ | hh
        · exact List.mem_append_left _ (List.mem_map.mpr ⟨i, hi, rfl⟩)
        · exact List.mem_append_right _ hh
      obtain ⟨i, hi, e⟩ := List.mem_map.mp (hp.mem_iff.mp hmem)
      exact ⟨i, List.mem_range.mp hi, e.symm⟩
    · rintro ⟨i, hi, rfl⟩
      have hmem := hp.mem_iff.mpr (List.mem_map.mpr ⟨i, List.mem_range.mpr hi, rfl⟩)
      rcases List.mem_append.mp hmem with hm | hm
      · obtain ⟨j, hj, e⟩ := List.mem_map.mp hm
        exact Or.inl ⟨j, hj, e.symm⟩
      · exact Or.inr hm
  · have := hp.length_eq
    simpa using this

/-- Witness of C20: a pool of two slots with the calls `allocate`, `allocate`,
`deallocate` of the handle 0 and `allocate`. -/
theorem pool_partition_disciplined_witness :
    Disciplined [] ((construct 2 : MemoryPool Nat).run
        [PoolCall.allocate, PoolCall.allocate, PoolCall.deallocate 0, PoolCall.allocate]).1 ∧
    ((construct 2 : MemoryPool Nat).run
        [PoolCall.allocate, PoolCall.allocate, PoolCall.deallocate 0,
          PoolCall.allocate]).2.free_indices_.length
      + (checkedOut [] ((construct 2 : MemoryPool Nat).run
        [PoolCall.allocate, PoolCall.allocate, PoolCall.deallocate 0,
          PoolCall.allocate]).1).length = 2 :=
  ⟨by decide, (pool_partition_disciplined 2 _ (by decide)).2.2.2.2⟩

end MemoryPool

end HyprTrader
